import Mathlib

/-!
Verification development for `nets.py` (FeatureNet / UserNet).

The source is a small PyTorch module. We give a shallow embedding:

* tensors are lists of rationals (`List ℚ` for vectors, `List (List ℚ)` for
  row-major matrices); PyTorch enforces rectangularity by construction, so
  theorems carry explicit length hypotheses where a property needs it;
* the softmax uses the transcendental `exp`, so the embedding is parametrized
  by a function `fexp : ℚ → ℚ`; theorems that depend on properties of `exp`
  assume only its strict positivity (`∀ x, 0 < fexp x`), which the real
  exponential satisfies;
* Python exceptions are modelled by `Except PyErr`: a failed dictionary
  lookup (`KeyError`), an out-of-range embedding index (`IndexError`), and
  `torch.tensor(None, ...)` (`TypeError`);
* the module's trainable parameters (embedding tables, linear layer weights
  and biases) are values supplied to the model structure; their random
  initial values come from the framework RNG and are treated as arbitrary.
-/

/-- Errors surfaced to the caller, named after the Python exception raised at
the corresponding place in `nets.py`. -/
inductive PyErr where
  | keyError
  | indexError
  | typeError
deriving DecidableEq

/-- Decidable equality for `Except`, so witnesses can be checked by `decide`. -/
instance instDecEqExcept {ε σ : Type} [DecidableEq ε] [DecidableEq σ] :
    DecidableEq (Except ε σ) := fun x y =>
  match x, y with
  | Except.ok a, Except.ok b =>
    if h : a = b then Decidable.isTrue (congrArg Except.ok h)
    else Decidable.isFalse (fun hc => h (Except.ok.inj hc))
  | Except.error e, Except.error f =>
    if h : e = f then Decidable.isTrue (congrArg Except.error h)
    else Decidable.isFalse (fun hc => h (Except.error.inj hc))
  | Except.ok _, Except.error _ => Decidable.isFalse (fun hc => Except.noConfusion hc)
  | Except.error _, Except.ok _ => Decidable.isFalse (fun hc => Except.noConfusion hc)

/-- Dot product of two equal-length vectors; `(a * b).sum(-1)` semantics. -/
def dot (a b : List ℚ) : ℚ := (List.zipWith (· * ·) a b).sum

/-- Elementwise sum of two vectors (`torch` `+` on equal shapes). -/
def vecAdd (a b : List ℚ) : List ℚ := List.zipWith (· + ·) a b

/-- Scalar multiple of a vector (broadcast `*`). -/
def scale (c : ℚ) (v : List ℚ) : List ℚ := v.map (fun x => c * x)

/-- ReLU (`F.relu`), elementwise `max(x, 0)`. -/
def relu (v : List ℚ) : List ℚ := v.map (fun x => max x 0)

/-- Parameters of an `nn.Linear` layer: weight matrix (rows of length
`in_features`) and bias vector. -/
structure Linear where
  weight : List (List ℚ)
  bias : List ℚ
deriving DecidableEq

/-- Application of `nn.Linear`: `y = x Wᵀ + b`, i.e. output `j` is
`dot (W_j) x + b_j`. -/
def Linear.apply (l : Linear) (x : List ℚ) : List ℚ :=
  List.zipWith (fun row b => dot row x + b) l.weight l.bias

/-- Softmax (`F.softmax(x, 0)`) over a length-`N` logit vector, with the exponential
abstracted as `fexp`. -/
def softmax (fexp : ℚ → ℚ) (l : List ℚ) : List ℚ :=
  l.map (fun x => fexp x / (l.map fexp).sum)

/-- Sum over the row axis, `t.sum(0)`, of an `N×d` tensor given row width `d`: entry `j` is the sum of
the `j`-th entries of the rows. -/
def sumRows (d : ℕ) (rows : List (List ℚ)) : List ℚ :=
  (List.range d).map (fun j => (rows.map (fun r => r.getD j 0)).sum)

/-- Concatenation `torch.cat([usern, items, components], dim=-1)` where `usern` is `user`
expanded to one row per item: row `n` is `user ++ items_n ++ components_n`. -/
def catRows (user : List ℚ) (items components : List (List ℚ)) : List (List ℚ) :=
  (items.zip components).map (fun p => user ++ p.1 ++ p.2)

/-- Parameters of `FeatureNet` (nets.py lines 6-37): two linear layers. -/
structure FeatureNet where
  l1 : Linear
  l2 : Linear
deriving DecidableEq

/-- Forward pass of `FeatureNet` (nets.py lines 24-37) for a batched `N×F` feature
tensor: the user vector is expanded to one row per feature row, concatenated
with it, then passed through `l1`, ReLU, `l2`, ReLU, row by row. -/
def FeatureNet.forward (fn : FeatureNet) (user : List ℚ) (components : List (List ℚ)) :
    List (List ℚ) :=
  components.map (fun c => relu (fn.l2.apply (relu (fn.l1.apply (user ++ c)))))

/-- State of a `UserNet` (nets.py lines 45-66): identity dictionaries,
optional feature sub-net, embedding tables, and the two scoring layers. -/
structure UserNet (α : Type) where
  emb_dim : ℕ
  user_dict : α → Option ℕ
  item_dict : α → Option ℕ
  feats : Option FeatureNet
  user_embedding : List (List ℚ)
  item_embedding : List (List ℚ)
  l1 : Linear
  l2 : Linear

/-- Dictionary construction `UserNet._create_dict` (nets.py lines 68-73): `for i, v in
enumerate(array): res[v] = i`, a left fold of insertions over the
index-annotated list; a Python dict lookup of a missing key is `none`. -/
def _create_dict {α : Type} [DecidableEq α] (array : List α) : α → Option ℕ :=
  array.enum.foldl (fun d p => Function.update d p.2 (some p.1)) (fun _ => none)

/-- Constructor `UserNet.__init__` (nets.py lines 45-66): builds both dictionaries with
`_create_dict` and instantiates `FeatureNet` only when `feature_dim > 0`.
Embedding tables and layer parameters are the framework-initialized values,
passed in. -/
def UserNet.init {α : Type} [DecidableEq α] (users items : List α)
    (emb_dim feature_dim : ℕ) (fparams : FeatureNet)
    (user_emb item_emb : List (List ℚ)) (l1 l2 : Linear) : UserNet α :=
  { emb_dim := emb_dim
    user_dict := _create_dict users
    item_dict := _create_dict items
    feats := if 0 < feature_dim then some fparams else none
    user_embedding := user_emb
    item_embedding := item_emb
    l1 := l1
    l2 := l2 }

/-- Lookup `UserNet._get_user` (nets.py lines 79-80): `self.user_dict[user_id]`,
raising `KeyError` when absent. -/
def _get_user {α : Type} (m : UserNet α) (user_id : α) : Except PyErr ℕ :=
  match m.user_dict user_id with
  | some i => Except.ok i
  | none => Except.error PyErr.keyError

/-- The list comprehension `[self.item_dict[item] for item in items]`:
left-to-right lookups, raising `KeyError` at the first missing id. -/
def lookupAll {α : Type} (d : α → Option ℕ) : List α → Except PyErr (List ℕ)
  | [] => Except.ok []
  | a :: as =>
    match d a with
    | none => Except.error PyErr.keyError
    | some i =>
      match lookupAll d as with
      | Except.error e => Except.error e
      | Except.ok is => Except.ok (i :: is)

/-- Lookup `UserNet._get_items` (nets.py lines 82-83). -/
def _get_items {α : Type} (m : UserNet α) (item_ids : List α) : Except PyErr (List ℕ) :=
  lookupAll m.item_dict item_ids

/-- Embedding (`nn.Embedding`) lookup of one row; out of range raises `IndexError`. -/
def embeddingRow (table : List (List ℚ)) (i : ℕ) : Except PyErr (List ℚ) :=
  match table[i]? with
  | some r => Except.ok r
  | none => Except.error PyErr.indexError

/-- Embedding table applied to an index tensor: gathers one row per index. -/
def gatherRows (table : List (List ℚ)) : List ℕ → Except PyErr (List (List ℚ))
  | [] => Except.ok []
  | i :: is =>
    match embeddingRow table i with
    | Except.error e => Except.error e
    | Except.ok r =>
      match gatherRows table is with
      | Except.error e => Except.error e
      | Except.ok rs => Except.ok (r :: rs)

/-- Composition `self.user_embedding(self._get_user(user_id))` (nets.py line 90). -/
def UserNet.userVec {α : Type} (m : UserNet α) (user_id : α) : Except PyErr (List ℚ) :=
  match _get_user m user_id with
  | Except.error e => Except.error e
  | Except.ok i => embeddingRow m.user_embedding i

/-- Operation `UserNet.get_items` (nets.py lines 85-86):
`self.item_embedding(self._get_items(item_ids))`; also line 91 of `forward`. -/
def UserNet.get_items {α : Type} (m : UserNet α) (item_ids : List α) :
    Except PyErr (List (List ℚ)) :=
  match _get_items m item_ids with
  | Except.error e => Except.error e
  | Except.ok is => gatherRows m.item_embedding is

/-- Lines 93-96 of `forward`: with a feature net present, `features=None`
makes `torch.tensor(None, dtype=torch.float32)` raise `TypeError` before the
feature layers run; otherwise the features are fused by `FeatureNet`. With no
feature net, `components = torch.tensor([])`, the empty block `torch.cat`
ignores — an `N×0` block, modelled as `n` empty rows. -/
def mkComponents {α : Type} (m : UserNet α) (user : List ℚ) (n : ℕ)
    (features : Option (List (List ℚ))) : Except PyErr (List (List ℚ)) :=
  match m.feats with
  | some fn =>
    match features with
    | none => Except.error PyErr.typeError
    | some fs => Except.ok (fn.forward user fs)
  | none => Except.ok (List.replicate n [])

/-- Forward pass `UserNet.forward` (nets.py lines 88-110), the `score_user` operation:
user and item embedding lookups, optional feature fusion, concatenation,
`l1`-ReLU-`l2` per-item logits (`l2` output rows have width 1, flattened via
`getD 0`), softmax over the item axis, and the weighted residual sum
`user + (items * x).sum(0)`. -/
def UserNet.forward {α : Type} (fexp : ℚ → ℚ) (m : UserNet α) (user_id : α)
    (item_ids : List α) (features : Option (List (List ℚ))) : Except PyErr (List ℚ) :=
  match m.userVec user_id with
  | Except.error e => Except.error e
  | Except.ok user =>
    match m.get_items item_ids with
    | Except.error e => Except.error e
    | Except.ok items =>
      match mkComponents m user items.length features with
      | Except.error e => Except.error e
      | Except.ok components =>
        let x := catRows user items components
        let x1 := x.map (fun r => relu (m.l1.apply r))
        let x2 := x1.map (fun r => m.l2.apply r)
        let w := softmax fexp (x2.map (fun r => r.getD 0 0))
        Except.ok (vecAdd user (sumRows user.length (List.zipWith scale w items)))

/-- Static `UserNet.score` (nets.py lines 112-115): broadcast the user vector to one
row per item and take row-wise dot products, `(usern * items).sum(1)`. -/
def UserNet.score (user : List ℚ) (items : List (List ℚ)) : List ℚ :=
  items.map (fun r => dot user r)

/-- State-transformer form of `forward`: the method reads `self` and assigns
nothing to it, so the model component of the result is the unchanged input. -/
def UserNet.forwardS {α : Type} (fexp : ℚ → ℚ) (m : UserNet α) (user_id : α)
    (item_ids : List α) (features : Option (List (List ℚ))) :
    UserNet α × Except PyErr (List ℚ) :=
  (m, m.forward fexp user_id item_ids features)

/-- State-transformer form of `get_items`: reads `self`, assigns nothing. -/
def UserNet.get_itemsS {α : Type} (m : UserNet α) (item_ids : List α) :
    UserNet α × Except PyErr (List (List ℚ)) :=
  (m, m.get_items item_ids)

/-- The per-item attention logit of the scoring head on a concatenated
`[user, item]` row: `l1`, ReLU, `l2`, first (only) output coordinate. -/
def attnLogit {α : Type} (m : UserNet α) (u r : List ℚ) : ℚ :=
  (m.l2.apply (relu (m.l1.apply (u ++ r)))).getD 0 0

/-! Helper lemmas about the embedded operations. -/

theorem lookupAll_err_of_none {α : Type} (d : α → Option ℕ) {l : List α} {a : α}
    (ha : a ∈ l) (hd : d a = none) : lookupAll d l = Except.error PyErr.keyError := by
  induction l with
  | nil => cases ha
  | cons b bs ih =>
    rcases List.mem_cons.mp ha with h | h
    · subst h
      simp [lookupAll, hd]
    · cases hb : d b with
      | none => simp [lookupAll, hb]
      | some i => simp [lookupAll, hb, ih h]

theorem lookupAll_ok_of_forall {α : Type} (d : α → Option ℕ) {l : List α}
    (h : ∀ a ∈ l, (d a).isSome) :
    lookupAll d l = Except.ok (l.map (fun a => (d a).getD 0)) := by
  induction l with
  | nil => rfl
  | cons b bs ih =>
    have hb := h b (List.mem_cons_self b bs)
    rcases Option.isSome_iff_exists.mp hb with ⟨i, hi⟩
    have hbs := ih (fun a ha => h a (List.mem_cons_of_mem b ha))
    simp [lookupAll, hi, hbs]

theorem lookupAll_ok_length {α : Type} {d : α → Option ℕ} {l : List α} {is : List ℕ}
    (h : lookupAll d l = Except.ok is) : is.length = l.length := by
  induction l generalizing is with
  | nil => simp [lookupAll] at h; simp [← h]
  | cons b bs ih =>
    cases hb : d b with
    | none => simp [lookupAll, hb] at h
    | some i =>
      cases hbs : lookupAll d bs with
      | error e => simp [lookupAll, hb, hbs] at h
      | ok js =>
        simp [lookupAll, hb, hbs] at h
        subst h
        simp [ih hbs]

/-- The row an in-range embedding lookup returns. -/
def rowOf (table : List (List ℚ)) (i : ℕ) : List ℚ := (table[i]?).getD []

theorem gatherRows_ok_of_forall {table : List (List ℚ)} {is : List ℕ}
    (h : ∀ i ∈ is, i < table.length) :
    gatherRows table is = Except.ok (is.map (rowOf table)) := by
  induction is with
  | nil => rfl
  | cons i js ih =>
    have hi : i < table.length := h i (List.mem_cons_self i js)
    have hrow : table[i]? = some table[i] := List.getElem?_eq_getElem hi
    have hjs := ih (fun j hj => h j (List.mem_cons_of_mem i hj))
    simp [gatherRows, embeddingRow, hrow, hjs, rowOf]

theorem gatherRows_ok_length {table : List (List ℚ)} {is : List ℕ} {rows : List (List ℚ)}
    (h : gatherRows table is = Except.ok rows) : rows.length = is.length := by
  induction is generalizing rows with
  | nil => simp [gatherRows] at h; simp [← h]
  | cons i js ih =>
    cases hr : embeddingRow table i with
    | error e => simp [gatherRows, hr] at h
    | ok r =>
      cases hjs : gatherRows table js with
      | error e => simp [gatherRows, hr, hjs] at h
      | ok rs =>
        simp [gatherRows, hr, hjs] at h
        subst h
        simp [ih hjs]

/-- The item-embedding row a known, in-range item id resolves to. -/
def itemRow {α : Type} (m : UserNet α) (a : α) : List ℚ :=
  rowOf m.item_embedding ((m.item_dict a).getD 0)

theorem get_items_ok {α : Type} {m : UserNet α} {item_ids : List α}
    (h : ∀ a ∈ item_ids, ∃ i, m.item_dict a = some i ∧ i < m.item_embedding.length) :
    m.get_items item_ids = Except.ok (item_ids.map (itemRow m)) := by
  have h1 : ∀ a ∈ item_ids, (m.item_dict a).isSome := by
    intro a ha
    rcases h a ha with ⟨i, hi, _⟩
    simp [hi]
  have h2 := lookupAll_ok_of_forall m.item_dict h1
  have h3 : ∀ j ∈ item_ids.map (fun a => (m.item_dict a).getD 0),
      j < m.item_embedding.length := by
    intro j hj
    rcases List.mem_map.mp hj with ⟨a, ha, rfl⟩
    rcases h a ha with ⟨i, hi, hlt⟩
    simpa [hi] using hlt
  simp [UserNet.get_items, _get_items, h2, gatherRows_ok_of_forall h3,
    List.map_map, itemRow, Function.comp]

theorem get_items_length {α : Type} {m : UserNet α} {item_ids : List α}
    {items : List (List ℚ)} (h : m.get_items item_ids = Except.ok items) :
    items.length = item_ids.length := by
  unfold UserNet.get_items _get_items at h
  cases hl : lookupAll m.item_dict item_ids with
  | error e => rw [hl] at h; cases h
  | ok is =>
    rw [hl] at h
    simp only [] at h
    cases hg : gatherRows m.item_embedding is with
    | error e => rw [hg] at h; cases h
    | ok rows =>
      rw [hg] at h
      cases h
      rw [gatherRows_ok_length hg, lookupAll_ok_length hl]

theorem softmax_length (fexp : ℚ → ℚ) (l : List ℚ) :
    (softmax fexp l).length = l.length := by
  simp [softmax]

theorem softmax_sum_pos {fexp : ℚ → ℚ} (hpos : ∀ x, 0 < fexp x) {l : List ℚ}
    (hne : l ≠ []) : 0 < (l.map fexp).sum := by
  apply List.sum_pos
  · intro x hx
    rcases List.mem_map.mp hx with ⟨a, _, rfl⟩
    exact hpos a
  · simpa using hne

theorem softmax_sum_one {fexp : ℚ → ℚ} (hpos : ∀ x, 0 < fexp x) {l : List ℚ}
    (hne : l ≠ []) : (softmax fexp l).sum = 1 := by
  have hS : 0 < (l.map fexp).sum := softmax_sum_pos hpos hne
  have : (softmax fexp l).sum = (l.map fexp).sum * ((l.map fexp).sum)⁻¹ := by
    simp only [softmax, div_eq_mul_inv]
    rw [List.sum_map_mul_right]
  rw [this, mul_inv_cancel₀ (ne_of_gt hS)]

theorem softmax_nonneg {fexp : ℚ → ℚ} (hpos : ∀ x, 0 < fexp x) {l : List ℚ} :
    ∀ x ∈ softmax fexp l, 0 ≤ x := by
  intro x hx
  rcases List.mem_map.mp hx with ⟨a, ha, rfl⟩
  have hne : l ≠ [] := List.ne_nil_of_mem ha
  exact div_nonneg (le_of_lt (hpos a)) (le_of_lt (softmax_sum_pos hpos hne))

theorem map_getD_range (v : List ℚ) :
    (List.range v.length).map (fun j => v.getD j 0) = v := by
  apply List.ext_getElem
  · simp
  · intro i h1 h2
    have hi : i < v.length := by simpa using h2
    simp [List.getD_eq_getElem?_getD, List.getElem?_eq_getElem hi]

theorem sumRows_single {v : List ℚ} {d : ℕ} (h : v.length = d) :
    sumRows d [v] = v := by
  subst h
  simpa [sumRows] using map_getD_range v

theorem sumRows_perm (d : ℕ) {rows₁ rows₂ : List (List ℚ)} (h : rows₁.Perm rows₂) :
    sumRows d rows₁ = sumRows d rows₂ := by
  unfold sumRows
  apply List.map_congr_left
  intro j _
  exact (h.map (fun r => r.getD j 0)).sum_eq

theorem zipWith_map_left_self {β γ δ : Type} (f : γ → β → δ) (g : β → γ) (l : List β) :
    List.zipWith f (l.map g) l = l.map (fun a => f (g a) a) := by
  induction l with
  | nil => rfl
  | cons a as ih => simp [ih]

theorem catRows_no_components (u : List ℚ) (items : List (List ℚ)) :
    catRows u items (List.replicate items.length []) = items.map (fun r => u ++ r) := by
  induction items with
  | nil => rfl
  | cons r rs ih =>
    simp only [catRows, List.length_cons, List.replicate, List.zip_cons_cons,
      List.map_cons, List.append_nil] at *
    exact congrArg _ ih

theorem forward_ok {α : Type} {fexp : ℚ → ℚ} {m : UserNet α} {user_id : α}
    {item_ids : List α} {u : List ℚ} {items : List (List ℚ)}
    (hf : m.feats = none) (hu : m.userVec user_id = Except.ok u)
    (hi : m.get_items item_ids = Except.ok items) :
    m.forward fexp user_id item_ids none =
      Except.ok (vecAdd u (sumRows u.length
        (List.zipWith scale (softmax fexp (items.map (attnLogit m u))) items))) := by
  unfold UserNet.forward
  rw [hu, hi]
  simp only [mkComponents, hf]
  rw [catRows_no_components]
  have hfun : attnLogit m u = fun x => (m.l2.apply (relu (m.l1.apply (u ++ x))))[0]?.getD 0 := by
    funext r
    simp [attnLogit, List.getD_eq_getElem?_getD]
  rw [hfun]
  simp [List.map_map, Function.comp_def]

theorem enumFrom_append_singleton {α : Type} (a : α) :
    ∀ (as : List α) (n : ℕ),
      List.enumFrom n (as ++ [a]) = List.enumFrom n as ++ [(n + as.length, a)] := by
  intro as
  induction as with
  | nil => intro n; simp
  | cons b bs ih =>
    intro n
    have h1 : List.enumFrom n ((b :: bs) ++ [a]) =
        (n, b) :: List.enumFrom (n + 1) (bs ++ [a]) := rfl
    have h2 : List.enumFrom n (b :: bs) = (n, b) :: List.enumFrom (n + 1) bs := rfl
    rw [h1, h2, ih (n + 1)]
    have harith : n + 1 + bs.length = n + (bs.length + 1) := by omega
    simp [harith]

theorem enum_append_singleton {α : Type} (as : List α) (a : α) :
    (as ++ [a]).enum = as.enum ++ [(as.length, a)] := by
  have h := enumFrom_append_singleton a as 0
  simpa [List.enum] using h

theorem createDict_nil {α : Type} [DecidableEq α] :
    _create_dict ([] : List α) = fun _ => none := rfl

theorem createDict_concat {α : Type} [DecidableEq α] (as : List α) (a : α) :
    _create_dict (as ++ [a]) = Function.update (_create_dict as) a (some as.length) := by
  unfold _create_dict
  rw [enum_append_singleton, List.foldl_append]
  rfl

theorem createDict_not_mem {α : Type} [DecidableEq α] {array : List α} {v : α}
    (hv : v ∉ array) : _create_dict array v = none := by
  induction array using List.reverseRecOn with
  | nil => rfl
  | append_singleton as a ih =>
    rw [createDict_concat]
    have hne : v ≠ a := by
      intro h
      exact hv (by simp [h])
    rw [Function.update_noteq hne]
    exact ih (fun h => hv (by simp [h]))

theorem createDict_getElem {α : Type} [DecidableEq α] {array : List α} (h : array.Nodup) :
    ∀ i (hi : i < array.length), _create_dict array array[i] = some i := by
  induction array using List.reverseRecOn with
  | nil =>
    intro i hi
    simp at hi
  | append_singleton as a ih =>
    intro i hi
    rcases List.nodup_append.mp h with ⟨has, _, hdisj⟩
    have hnotmem : a ∉ as := fun hmem => hdisj hmem (by simp)
    rw [createDict_concat]
    by_cases hcase : i < as.length
    · have hgl : (as ++ [a])[i] = as[i] := List.getElem_append_left hcase
      rw [hgl]
      have hne : as[i] ≠ a := fun he => hnotmem (he ▸ List.getElem_mem hcase)
      rw [Function.update_noteq hne]
      exact ih has i hcase
    · have hieq : i = as.length := by
        simp at hi
        omega
      subst hieq
      have hgl : (as ++ [a])[as.length] = a :=
        List.getElem_concat_length as a as.length rfl hi
      rw [hgl, Function.update_same]

theorem createDict_some {α : Type} [DecidableEq α] {array : List α} {v : α} {n : ℕ}
    (h : _create_dict array v = some n) : n < array.length ∧ array[n]? = some v := by
  induction array using List.reverseRecOn generalizing n with
  | nil =>
    rw [createDict_nil] at h
    simp at h
  | append_singleton as a ih =>
    rw [createDict_concat] at h
    by_cases hva : v = a
    · subst hva
      rw [Function.update_same] at h
      have hn : as.length = n := by injection h
      subst hn
      exact ⟨by simp, List.getElem?_concat_length as v⟩
    · rw [Function.update_noteq hva] at h
      obtain ⟨hlt, hget⟩ := ih h
      constructor
      · simp
        omega
      · rw [List.getElem?_append_left hlt]
        exact hget

/-- Linear combination `a*x + b*y` of two vectors, entrywise. -/
def vecLin (a b : ℚ) (x y : List ℚ) : List ℚ :=
  List.zipWith (fun p q => a * p + b * q) x y

/-- Linear combination `a*I1 + b*I2` of two matrices, rowwise. -/
def matLin (a b : ℚ) (I1 I2 : List (List ℚ)) : List (List ℚ) :=
  List.zipWith (vecLin a b) I1 I2

theorem dot_lin (a b : ℚ) : ∀ (u r1 r2 : List ℚ), r1.length = r2.length →
    dot u (vecLin a b r1 r2) = a * dot u r1 + b * dot u r2 := by
  intro u
  induction u with
  | nil =>
    intro r1 r2 _
    simp [dot]
  | cons x xs ih =>
    intro r1 r2 hlen
    cases r1 with
    | nil =>
      cases r2 with
      | nil => simp [dot, vecLin]
      | cons z zs => simp at hlen
    | cons y ys =>
      cases r2 with
      | nil => simp at hlen
      | cons z zs =>
        have hys : ys.length = zs.length := by simpa using hlen
        have hrec := ih ys zs hys
        simp only [vecLin, List.zipWith_cons_cons, dot, List.sum_cons] at hrec ⊢
        rw [hrec]
        ring

theorem score_lin (user : List ℚ) (a b : ℚ) : ∀ (I1 I2 : List (List ℚ)),
    I1.length = I2.length → (∀ p ∈ I1.zip I2, p.1.length = p.2.length) →
    UserNet.score user (matLin a b I1 I2)
      = vecLin a b (UserNet.score user I1) (UserNet.score user I2) := by
  intro I1
  induction I1 with
  | nil =>
    intro I2 hlen _
    have : I2 = [] := List.length_eq_zero.mp (by simpa using hlen.symm)
    subst this
    rfl
  | cons r rs ih =>
    intro I2 hlen hrows
    cases I2 with
    | nil => simp at hlen
    | cons s ss =>
      have h1 : r.length = s.length := hrows (r, s) (by simp)
      have h2 : rs.length = ss.length := by simpa using hlen
      have h3 : ∀ p ∈ rs.zip ss, p.1.length = p.2.length := by
        intro p hp
        exact hrows p (by simp [hp])
      simp only [matLin, List.zipWith_cons_cons, UserNet.score, List.map_cons, vecLin]
      have hrec := ih ss h2 h3
      simp only [matLin, UserNet.score, vecLin] at hrec
      rw [hrec]
      have hd := dot_lin a b user r s h1
      simp only [vecLin] at hd
      rw [hd]

theorem aggregate_perm (fexp : ℚ → ℚ) (d : ℕ) (g : List ℚ → ℚ)
    {l1 l2 : List (List ℚ)} (h : l1.Perm l2) :
    sumRows d (List.zipWith scale (softmax fexp (l1.map g)) l1)
      = sumRows d (List.zipWith scale (softmax fexp (l2.map g)) l2) := by
  have hS : ((l1.map g).map fexp).sum = ((l2.map g).map fexp).sum :=
    ((h.map g).map fexp).sum_eq
  have h1 : softmax fexp (l1.map g)
      = l1.map (fun r => fexp (g r) / ((l1.map g).map fexp).sum) := by
    simp [softmax, List.map_map, Function.comp_def]
  have h2 : softmax fexp (l2.map g)
      = l2.map (fun r => fexp (g r) / ((l2.map g).map fexp).sum) := by
    simp [softmax, List.map_map, Function.comp_def]
  rw [h1, h2, hS, zipWith_map_left_self, zipWith_map_left_self]
  exact sumRows_perm d (h.map _)

/-- A concrete feature-net parameter set (D = 1, F = 1) for witnesses. -/
def exFeat : FeatureNet := ⟨⟨[[1, 1]], [0]⟩, ⟨[[1]], [0]⟩⟩

/-- A concrete fusion-disabled model: `D = 1`, users `[10, 11]`, items
`[20, 21]`, explicit embedding tables and layer parameters. -/
def exNet : UserNet ℕ :=
  UserNet.init [10, 11] [20, 21] 1 0 exFeat [[1], [2]] [[3], [5]] ⟨[[1, 1]], [0]⟩ ⟨[[2]], [0]⟩

/-- The same model with feature fusion enabled (`feature_dim = 1`). -/
def exNetF : UserNet ℕ :=
  UserNet.init [10, 11] [20, 21] 1 1 exFeat [[1], [2]] [[3], [5]] ⟨[[1, 1]], [0]⟩ ⟨[[2]], [0]⟩

/-- A concrete positive stand-in for the exponential in witnesses. -/
def exExp : ℚ → ℚ := fun _ => 1


/-- C7: for every ordered list of unique identities, the dictionary built by
`_create_dict` maps the `i`-th identity to index `i`; every id that maps at
all maps into `[0, count)`; the mapping is injective and surjective onto
`[0, count)` (a bijection); `__init__` installs exactly these dictionaries;
and neither `forward` nor `get_items` modifies them. -/
theorem spec_C7 {α : Type} [DecidableEq α] (array : List α) (h : array.Nodup) :
    (∀ i (hi : i < array.length), _create_dict array array[i] = some i) ∧
    (∀ v n, _create_dict array v = some n → n < array.length) ∧
    (∀ v w n, _create_dict array v = some n → _create_dict array w = some n → v = w) ∧
    (∀ n, n < array.length → ∃ v, _create_dict array v = some n) ∧
    (∀ (users items : List α) (emb_dim feature_dim : ℕ) (fp : FeatureNet)
        (ue ie : List (List ℚ)) (w1 w2 : Linear),
      (UserNet.init users items emb_dim feature_dim fp ue ie w1 w2).user_dict
          = _create_dict users ∧
      (UserNet.init users items emb_dim feature_dim fp ue ie w1 w2).item_dict
          = _create_dict items) ∧
    (∀ (m : UserNet α) (fexp : ℚ → ℚ) (uid : α) (iids : List α)
        (fs : Option (List (List ℚ))),
      (UserNet.forwardS fexp m uid iids fs).1.user_dict = m.user_dict ∧
      (UserNet.forwardS fexp m uid iids fs).1.item_dict = m.item_dict ∧
      (UserNet.get_itemsS m iids).1.user_dict = m.user_dict ∧
      (UserNet.get_itemsS m iids).1.item_dict = m.item_dict) := by
  refine ⟨createDict_getElem h, ?_, ?_, ?_, ?_, ?_⟩
  · intro v n hv
    exact (createDict_some hv).1
  · intro v w n hv hw
    have h1 := (createDict_some hv).2
    have h2 := (createDict_some hw).2
    rw [h1] at h2
    exact Option.some.inj h2
  · intro n hn
    exact ⟨array[n], createDict_getElem h n hn⟩
  · intro users items emb_dim feature_dim fp ue ie w1 w2
    exact ⟨rfl, rfl⟩
  · intro m fexp uid iids fs
    exact ⟨rfl, rfl, rfl, rfl⟩

/-- C7 witness: for the two-element identity list `[10, 11]`, the dictionary
sends the entry at index 1 to index 1. -/
theorem spec_C7_witness :
    ([10, 11] : List ℕ).Nodup ∧ _create_dict ([10, 11] : List ℕ) 11 = some 1 := by
  refine ⟨by decide, ?_⟩
  have h := (spec_C7 ([10, 11] : List ℕ) (by decide)).1 1 (by decide)
  simpa using h

/-- C3: the static `score` returns the row-wise dot products of the user
vector with each item row, and is linear in the item matrix. -/
theorem spec_C3 (user : List ℚ) (a b : ℚ) (I I1 I2 : List (List ℚ))
    (hlen : I1.length = I2.length)
    (hrows : ∀ p ∈ I1.zip I2, p.1.length = p.2.length) :
    UserNet.score user I = I.map (fun r => dot user r) ∧
    UserNet.score user (matLin a b I1 I2)
      = vecLin a b (UserNet.score user I1) (UserNet.score user I2) :=
  ⟨rfl, score_lin user a b I1 I2 hlen hrows⟩

/-- C3 witness: linearity at `u = [1, 2]`, `I1 = [[1, 0]]`, `I2 = [[4, 5]]`,
`a = 2`, `b = 3`. -/
theorem spec_C3_witness :
    UserNet.score [1, 2] (matLin 2 3 [[1, 0]] [[4, 5]])
      = vecLin 2 3 (UserNet.score [1, 2] [[1, 0]]) (UserNet.score [1, 2] [[4, 5]]) :=
  (spec_C3 [1, 2] 2 3 [] [[1, 0]] [[4, 5]] (by decide) (by decide)).2

/-- C8: `forward` (`score_user`) and `score` are pure functions of the model
parameters and the call arguments — the embedding contains no random source,
so two calls on identical inputs give identical outputs. -/
theorem spec_C8 {α : Type} (fexp : ℚ → ℚ) (m : UserNet α) (uid : α) (iids : List α)
    (fs : Option (List (List ℚ))) (u : List ℚ) (I : List (List ℚ)) :
    m.forward fexp uid iids fs = m.forward fexp uid iids fs ∧
    UserNet.score u I = UserNet.score u I :=
  ⟨rfl, rfl⟩

/-- C9: `forward` and `get_items` assign nothing to the model: the state
component of the state-transformer forms is the input model, every stored
parameter included; only the result value is produced. -/
theorem spec_C9 {α : Type} (fexp : ℚ → ℚ) (m : UserNet α) (uid : α) (iids : List α)
    (fs : Option (List (List ℚ))) :
    (UserNet.forwardS fexp m uid iids fs).1 = m ∧
    (UserNet.forwardS fexp m uid iids fs).1.user_embedding = m.user_embedding ∧
    (UserNet.forwardS fexp m uid iids fs).1.item_embedding = m.item_embedding ∧
    (UserNet.forwardS fexp m uid iids fs).1.user_dict = m.user_dict ∧
    (UserNet.forwardS fexp m uid iids fs).1.item_dict = m.item_dict ∧
    (UserNet.forwardS fexp m uid iids fs).1.l1 = m.l1 ∧
    (UserNet.forwardS fexp m uid iids fs).1.l2 = m.l2 ∧
    (UserNet.forwardS fexp m uid iids fs).1.feats = m.feats ∧
    (UserNet.get_itemsS m iids).1 = m :=
  ⟨rfl, rfl, rfl, rfl, rfl, rfl, rfl, rfl, rfl⟩

/-- C5: with fusion disabled, the components block is the empty `N×0` block
(every row has width 0), the concatenation collapses to `[user, item]` rows,
and each concatenated row has width `2 * D` when user and item rows have
width `D` — so the scoring layers receive exactly the user and item
columns. -/
theorem spec_C5 {α : Type} (m : UserNet α) (u : List ℚ) (items : List (List ℚ))
    (fs : Option (List (List ℚ)))
    (hf : m.feats = none) (hu : u.length = m.emb_dim)
    (hitems : ∀ r ∈ items, r.length = m.emb_dim) :
    mkComponents m u items.length fs = Except.ok (List.replicate items.length []) ∧
    (∀ c ∈ List.replicate items.length ([] : List ℚ), c.length = 0) ∧
    catRows u items (List.replicate items.length []) = items.map (fun r => u ++ r) ∧
    (∀ row ∈ catRows u items (List.replicate items.length []),
      row.length = 2 * m.emb_dim) := by
  refine ⟨by simp [mkComponents, hf], by simp, catRows_no_components u items, ?_⟩
  intro row hrow
  rw [catRows_no_components] at hrow
  rcases List.mem_map.mp hrow with ⟨r, hr, rfl⟩
  rw [List.length_append, hu, hitems r hr]
  omega

/-- C5 witness: the fusion-disabled example model with two width-1 items. -/
theorem spec_C5_witness :
    catRows [1] [[3], [5]] (List.replicate ([[3], [5]] : List (List ℚ)).length [])
      = [[3], [5]].map (fun r => [1] ++ r) :=
  (spec_C5 exNet [1] [[3], [5]] none (by decide) (by decide) (by decide)).2.2.1

/-- C6: with feature fusion enabled, a call that omits `raw_features`
(`features = None`) fails with the contract-violation error (`TypeError`,
raised by the feature coercion) before any layer computation, for every
setting of the layer parameters; no value is returned. -/
theorem spec_C6 {α : Type} (fexp : ℚ → ℚ) (m : UserNet α) (uid : α) (iids : List α)
    (fn : FeatureNet) (u : List ℚ) (items : List (List ℚ))
    (hf : m.feats = some fn) (hu : m.userVec uid = Except.ok u)
    (hi : m.get_items iids = Except.ok items) :
    m.forward fexp uid iids none = Except.error PyErr.typeError := by
  unfold UserNet.forward
  rw [hu, hi]
  simp [mkComponents, hf]

/-- C6 witness: the fusion-enabled example model, known user and item, no
features supplied. -/
theorem spec_C6_witness :
    exNetF.forward exExp 10 [20] none = Except.error PyErr.typeError :=
  spec_C6 exExp exNetF 10 [20] exFeat [1] [[3]] (by decide) (by decide) (by decide)

/-- C4: an unknown user id makes `forward` fail with the lookup error
(`KeyError`); an unknown item id in the list makes `forward` and `get_items`
fail the same way; and when the user id and all item ids are known (with
in-range indices, as construction guarantees) and fusion is disabled, the
lookups succeed and `forward` returns a value. -/
theorem spec_C4 {α : Type} (fexp : ℚ → ℚ) (m : UserNet α) (uid : α) (iids : List α)
    (iid : α) (fs : Option (List (List ℚ))) :
    (m.user_dict uid = none → m.forward fexp uid iids fs = Except.error PyErr.keyError) ∧
    (iid ∈ iids → m.item_dict iid = none → ∀ u, m.userVec uid = Except.ok u →
      m.forward fexp uid iids fs = Except.error PyErr.keyError) ∧
    (iid ∈ iids → m.item_dict iid = none →
      m.get_items iids = Except.error PyErr.keyError) ∧
    ((m.user_dict uid).isSome ∧ (m.user_dict uid).getD 0 < m.user_embedding.length →
      (∀ a ∈ iids, (m.item_dict a).isSome ∧
        (m.item_dict a).getD 0 < m.item_embedding.length) →
      m.feats = none →
      ∃ v, m.forward fexp uid iids none = Except.ok v) := by
  have hitems_err : iid ∈ iids → m.item_dict iid = none →
      m.get_items iids = Except.error PyErr.keyError := by
    intro hmem hnone
    unfold UserNet.get_items _get_items
    rw [lookupAll_err_of_none m.item_dict hmem hnone]
  refine ⟨?_, ?_, hitems_err, ?_⟩
  · intro h
    unfold UserNet.forward UserNet.userVec _get_user
    rw [h]
  · intro hmem hnone u hu
    unfold UserNet.forward
    rw [hu, hitems_err hmem hnone]
  · intro hu hitems hf
    rcases hu with ⟨husome, hult⟩
    rcases Option.isSome_iff_exists.mp husome with ⟨k, hk⟩
    have hult' : k < m.user_embedding.length := by
      rw [hk] at hult
      simpa using hult
    have huser : m.userVec uid = Except.ok (rowOf m.user_embedding k) := by
      unfold UserNet.userVec _get_user embeddingRow
      rw [hk]
      simp [List.getElem?_eq_getElem hult', rowOf]
    have hex : ∀ a ∈ iids, ∃ j, m.item_dict a = some j ∧
        j < m.item_embedding.length := by
      intro a ha
      rcases hitems a ha with ⟨hsome, hlt⟩
      rcases Option.isSome_iff_exists.mp hsome with ⟨j, hj⟩
      refine ⟨j, hj, ?_⟩
      rw [hj] at hlt
      simpa using hlt
    exact ⟨_, forward_ok hf huser (get_items_ok hex)⟩

/-- C4 witness: the example model with unknown user 99, unknown item 99, and
the fully known call `(10, [20, 21])`. -/
theorem spec_C4_witness :
    exNet.forward exExp 99 [20] none = Except.error PyErr.keyError ∧
    exNet.forward exExp 10 [20, 99] none = Except.error PyErr.keyError ∧
    exNet.get_items [20, 99] = Except.error PyErr.keyError ∧
    ∃ v, exNet.forward exExp 10 [20, 21] none = Except.ok v := by
  refine ⟨?_, ?_, ?_, ?_⟩
  · exact (spec_C4 exExp exNet 99 [20] 99 none).1 (by decide)
  · exact (spec_C4 exExp exNet 10 [20, 99] 99 none).2.1 (by decide) (by decide) [1] (by decide)
  · exact (spec_C4 exExp exNet 10 [20, 99] 99 none).2.2.1 (by decide) (by decide)
  · exact (spec_C4 exExp exNet 10 [20, 21] 99 none).2.2.2 (by decide) (by decide) (by decide)

/-- C1: with fusion disabled and known user and items (non-empty), `forward`
returns `u + Σ w_n · I_n` where `w` is the softmax of the per-item
`l1`-ReLU-`l2` logits on the concatenated `[user, item]` rows; the weights
are non-negative and sum to 1. -/
theorem spec_C1 {α : Type} (fexp : ℚ → ℚ) (hpos : ∀ x, 0 < fexp x)
    (m : UserNet α) (uid : α) (iids : List α) (u : List ℚ) (items : List (List ℚ))
    (hf : m.feats = none) (hu : m.userVec uid = Except.ok u)
    (hi : m.get_items iids = Except.ok items) (hne : iids ≠ []) :
    ∃ w, w = softmax fexp (items.map (attnLogit m u)) ∧
      m.forward fexp uid iids none
        = Except.ok (vecAdd u (sumRows u.length (List.zipWith scale w items))) ∧
      (∀ x ∈ w, 0 ≤ x) ∧ w.sum = 1 := by
  have hlen := get_items_length hi
  have hne' : items ≠ [] := by
    intro h
    subst h
    exact hne (List.length_eq_zero.mp (by simpa using hlen.symm))
  have hlog : items.map (attnLogit m u) ≠ [] := by simpa using hne'
  exact ⟨_, rfl, forward_ok hf hu hi, softmax_nonneg hpos, softmax_sum_one hpos hlog⟩

/-- C1 witness: the example model at user 10 and items `[20, 21]`, with the
constant-1 positive stand-in for the exponential. -/
theorem spec_C1_witness :
    ∃ w, w = softmax exExp ([[3], [5]].map (attnLogit exNet [1])) ∧
      exNet.forward exExp 10 [20, 21] none
        = Except.ok (vecAdd [1]
            (sumRows ([1] : List ℚ).length (List.zipWith scale w [[3], [5]]))) ∧
      (∀ x ∈ w, 0 ≤ x) ∧ w.sum = 1 :=
  spec_C1 exExp (by intro x; norm_num [exExp]) exNet 10 [20, 21] [1] [[3], [5]]
    (by decide) (by decide) (by decide) (by decide)

/-- C2: for a single known item, the softmax of the one logit is exactly
`[1]` and `forward` reduces to the sum of the user and item embeddings. -/
theorem spec_C2 {α : Type} (fexp : ℚ → ℚ) (hpos : ∀ x, 0 < fexp x)
    (m : UserNet α) (uid iid : α) (u v : List ℚ)
    (hf : m.feats = none) (hu : m.userVec uid = Except.ok u)
    (hi : m.get_items [iid] = Except.ok [v]) (hl : v.length = u.length) :
    (∀ z : ℚ, softmax fexp [z] = [1]) ∧
    m.forward fexp uid [iid] none = Except.ok (vecAdd u v) := by
  have hsm : ∀ z : ℚ, softmax fexp [z] = [1] := by
    intro z
    simp [softmax]
    exact div_self (ne_of_gt (hpos z))
  refine ⟨hsm, ?_⟩
  rw [forward_ok hf hu hi]
  have h1 : List.map (attnLogit m u) [v] = [attnLogit m u v] := rfl
  rw [h1, hsm (attnLogit m u v)]
  have h2 : List.zipWith scale [(1 : ℚ)] [v] = [scale 1 v] := rfl
  rw [h2]
  have h3 : scale (1 : ℚ) v = v := by simp [scale]
  rw [h3, sumRows_single hl]

/-- C2 witness: user 10 with the single item 20 in the example model. -/
theorem spec_C2_witness :
    exNet.forward exExp 10 [20] none = Except.ok (vecAdd [1] [3]) :=
  (spec_C2 exExp (by intro x; norm_num [exExp]) exNet 10 20 [1] [3]
    (by decide) (by decide) (by decide) (by decide)).2

/-- C10: with fusion disabled, a known user and known in-range items,
`forward` is invariant under permutation of the item id list: the logits are
computed row-wise, the softmax normalizer is a permutation-invariant sum, and
the weighted row sum is permutation-invariant. -/
theorem spec_C10 {α : Type} (fexp : ℚ → ℚ) (m : UserNet α) (uid : α)
    (iids1 iids2 : List α) (u : List ℚ)
    (hf : m.feats = none) (hperm : iids1.Perm iids2)
    (hu : m.userVec uid = Except.ok u)
    (hitems : ∀ a ∈ iids1, (m.item_dict a).isSome ∧
      (m.item_dict a).getD 0 < m.item_embedding.length) :
    m.forward fexp uid iids1 none = m.forward fexp uid iids2 none := by
  have hex1 : ∀ a ∈ iids1, ∃ j, m.item_dict a = some j ∧
      j < m.item_embedding.length := by
    intro a ha
    rcases hitems a ha with ⟨hsome, hlt⟩
    rcases Option.isSome_iff_exists.mp hsome with ⟨j, hj⟩
    refine ⟨j, hj, ?_⟩
    rw [hj] at hlt
    simpa using hlt
  have hex2 : ∀ a ∈ iids2, ∃ j, m.item_dict a = some j ∧
      j < m.item_embedding.length :=
    fun a ha => hex1 a (hperm.mem_iff.mpr ha)
  have hi1 := get_items_ok hex1
  have hi2 := get_items_ok hex2
  rw [forward_ok hf hu hi1, forward_ok hf hu hi2]
  have hpermI : (iids1.map (itemRow m)).Perm (iids2.map (itemRow m)) := hperm.map _
  rw [aggregate_perm fexp u.length (attnLogit m u) hpermI]

/-- C10 witness: swapping the two items of the example model. -/
theorem spec_C10_witness :
    exNet.forward exExp 10 [20, 21] none = exNet.forward exExp 10 [21, 20] none :=
  spec_C10 exExp exNet 10 [20, 21] [21, 20] [1]
    (by decide) (by decide) (by decide) (by decide)
